import Mathlib

/-!
Verification of `cryptos/keys.py`: secret-key generation (rejection sampling
over an entropy source) and the SEC binary codec for public keys.

The curve parameters (`bitcoin.py` / `curves.py`) are external collaborators
of this module; following §9 of the design document they are modelled as an
explicitly passed `CurveParams` value.  Byte strings are modelled as
`List Nat` (each entry one byte), Python's `int.from_bytes(_, 'big')` and
`int.to_bytes(32, 'big')` as explicit base-256 conversions, and Python
slices `b[i:j]` as `(b.drop i).take (j - i)` (both clamp out-of-range
indices the same way).
-/

/-- Model of Python `x.to_bytes(l, 'big')` (big-endian, most significant
byte first), defined for any `x`; Python raises `OverflowError` for
`x ≥ 256 ^ l`, which `intToBytesBEChecked` accounts for. -/
def intToBytesBE : Nat → Nat → List Nat
  | 0, _ => []
  | l + 1, x => intToBytesBE l (x / 256) ++ [x % 256]

/-- Model of Python `int.from_bytes(b, 'big')`. -/
def intFromBytesBE (b : List Nat) : Nat :=
  b.foldl (fun a c => 256 * a + c) 0

/-- Python `x.to_bytes(l, 'big')` raises `OverflowError` when `x` does not
fit in `l` bytes; modelled as `none`. -/
def intToBytesBEChecked (l x : Nat) : Option (List Nat) :=
  if x < 256 ^ l then some (intToBytesBE l x) else none

/-- Modelled from the spec: curve parameters (prime modulus `p`; generator
and order are not needed by the codec) live in `bitcoin.py` / `curves.py`,
which are external collaborators; §9 of the design asks for an explicitly
passed CurveParameters value. -/
structure CurveParams where
  p : Nat
deriving DecidableEq, Repr

/-- Modelled from the spec: the fixed secp256k1-style prime modulus of the
BITCOIN curve parameter set (a prime congruent to 3 mod 4). -/
def secp256k1_p : Nat := 2 ^ 256 - 2 ^ 32 - 977

/-- Modelled from the spec: the process-wide BITCOIN curve parameters. -/
def BITCOIN_curve : CurveParams := ⟨secp256k1_p⟩

/-- Ways `PublicKey.decode` can fail: `b[0]` on an empty buffer raises
`IndexError`; a failed `assert b[0] in [2, 3]` raises `AssertionError`
(the spec's `InvalidEncodingError`). -/
inductive DecodeError where
  | indexError
  | assertionError
deriving DecidableEq, Repr

/-- The decode result: the uncompressed branch constructs a plain
`curves.Point`, the compressed branch constructs a `PublicKey` (`cls`)
instance.  Coordinates are carried verbatim. -/
inductive DecodedPoint where
  | point (x y : Nat)
  | publicKey (x y : Nat)
deriving DecidableEq, Repr

/-- The coordinates of a decoded point, forgetting the class tag. -/
def DecodedPoint.coords : DecodedPoint → Nat × Nat
  | .point x y => (x, y)
  | .publicKey x y => (x, y)

/-- Model of `PublicKey.decode` from keys.py:

    if b[0] == 4:
        x = int.from_bytes(b[1:33], 'big'); y = int.from_bytes(b[33:65], 'big')
        return Point(curve, x, y)
    assert b[0] in [2, 3]
    is_even = b[0] == 2
    x = int.from_bytes(b[1:], 'big')
    y2 = (pow(x, 3, p) + 7) % p
    y = pow(y2, (p + 1) // 4, p)
    y = y if ((y % 2 == 0) == is_even) else p - y
    return cls(curve, x, y) -/
def PublicKey.decode (curve : CurveParams) (b : List Nat) :
    Except DecodeError DecodedPoint :=
  match b with
  | [] => .error .indexError
  | b0 :: rest =>
    if b0 = 4 then
      let x := intFromBytesBE (rest.take 32)
      let y := intFromBytesBE ((rest.drop 32).take 32)
      .ok (.point x y)
    else if b0 = 2 ∨ b0 = 3 then
      let is_even := b0 = 2
      let x := intFromBytesBE rest
      let p := curve.p
      let y2 := (x ^ 3 % p + 7) % p
      let y0 := y2 ^ ((p + 1) / 4) % p
      let y := if (y0 % 2 = 0) ↔ is_even then y0 else p - y0
      .ok (.publicKey x y)
    else
      .error .assertionError

/-- Model of `PublicKey.encode` from keys.py (on the point's coordinates):

    if compressed:
        prefix = b'\x02' if self.y % 2 == 0 else b'\x03'
        return prefix + self.x.to_bytes(32, 'big')
    else:
        return b'\x04' + self.x.to_bytes(32, 'big') + self.y.to_bytes(32, 'big') -/
def PublicKey.encode (x y : Nat) (compressed : Bool) : Option (List Nat) :=
  if compressed then
    (intToBytesBEChecked 32 x).map
      (fun xb => (if y % 2 = 0 then [2] else [3]) ++ xb)
  else
    (intToBytesBEChecked 32 x).bind fun xb =>
      (intToBytesBEChecked 32 y).map fun yb => [4] ++ xb ++ yb

/-- Model of `mastering_bitcoin_bytes`: `bytes.fromhex` of the published
secret key `3aba4162c7251c891207b747840551a71939b0de081f85c4e44cf7c13e41daa6`. -/
def mastering_bitcoin_bytes : List Nat :=
  [0x3a, 0xba, 0x41, 0x62, 0xc7, 0x25, 0x1c, 0x89,
   0x12, 0x07, 0xb7, 0x47, 0x84, 0x05, 0x51, 0xa7,
   0x19, 0x39, 0xb0, 0xde, 0x08, 0x1f, 0x85, 0xc4,
   0xe4, 0x4c, 0xf7, 0xc1, 0x3e, 0x41, 0xda, 0xa6]

/-- Failure of `gen_secret_key`: the failed `assert source in [...]`
(the spec's `ConfigurationError`). -/
inductive KeyGenError where
  | configurationError
deriving DecidableEq, Repr

/-- The recognized entropy source names of `gen_secret_key`. -/
def recognizedSources : List String := ["os", "user", "mastering"]

/-- The `while True` rejection-sampling loop of `gen_secret_key`: iteration
`i` draws `sample i` bytes (one fresh call of `bytes_fn` per iteration),
interprets them big-endian, and accepts iff `1 <= key < n`.  `fuel` bounds
the number of iterations observed; `none` means the loop has not yet
returned within `fuel` iterations (the Python loop is unbounded). -/
def genLoop (sample : Nat → List Nat) (n : Nat) : Nat → Nat → Option Nat
  | _, 0 => none
  | i, fuel + 1 =>
    let key := intFromBytesBE (sample i)
    if 1 ≤ key ∧ key < n then some key else genLoop sample n (i + 1) fuel

/-- The `bytes_fn` dispatch of `gen_secret_key`: the nondeterministic
sources `'os'` and `'user'` are modelled as oracle streams of byte strings
(one entry per call); `'mastering'` always returns the fixed vector. -/
def source_bytes (source : String) (osStream userStream : Nat → List Nat) :
    Nat → List Nat :=
  if source = "os" then osStream
  else if source = "user" then userStream
  else fun _ => mastering_bitcoin_bytes

/-- Model of `gen_secret_key(n, source)`: the source-name assert, then the
rejection-sampling loop.  `.ok none` means the call is still looping after
`fuel` iterations (it has neither returned nor failed). -/
def gen_secret_key (n : Nat) (source : String)
    (osStream userStream : Nat → List Nat) (fuel : Nat) :
    Except KeyGenError (Option Nat) :=
  if source ∈ recognizedSources then
    .ok (genLoop (source_bytes source osStream userStream) n 0 fuel)
  else
    .error .configurationError

/-! Basic facts about the byte conversions. -/

theorem intToBytesBE_length (l : Nat) : ∀ x, (intToBytesBE l x).length = l := by
  induction l with
  | zero => intro x; simp [intToBytesBE]
  | succ l ih => intro x; simp [intToBytesBE, ih]

theorem intFromBytesBE_append_singleton (bs : List Nat) (c : Nat) :
    intFromBytesBE (bs ++ [c]) = 256 * intFromBytesBE bs + c := by
  simp [intFromBytesBE, List.foldl_append]

theorem intFromBytesBE_intToBytesBE (l : Nat) :
    ∀ x, intFromBytesBE (intToBytesBE l x) = x % 256 ^ l := by
  induction l with
  | zero => intro x; simp [intToBytesBE, intFromBytesBE, Nat.mod_one]
  | succ l ih =>
    intro x
    have h256 : (256 : Nat) ^ (l + 1) = 256 * 256 ^ l := by ring
    rw [intToBytesBE, intFromBytesBE_append_singleton, ih, h256, Nat.mod_mul]
    omega

theorem intFromBytesBE_intToBytesBE_of_lt {l x : Nat} (h : x < 256 ^ l) :
    intFromBytesBE (intToBytesBE l x) = x := by
  rw [intFromBytesBE_intToBytesBE, Nat.mod_eq_of_lt h]

theorem pow256_32 : (256 : Nat) ^ 32 = 2 ^ 256 := by norm_num

/-! The key value of the fixed test vector. -/

theorem intFromBytesBE_mastering :
    intFromBytesBE mastering_bitcoin_bytes =
      0x3aba4162c7251c891207b747840551a71939b0de081f85c4e44cf7c13e41daa6 := by
  rfl

/-! The square-root extraction `y2 ^ ((p + 1) / 4) % p` of the compressed
branch of decode: when `y2` is congruent to a square `y ^ 2` mod a prime
`p ≡ 3 (mod 4)`, the candidate root is `y` or `p - y`. -/

theorem sqrt_candidate (p : Nat) (hp : Nat.Prime p) (h4 : p % 4 = 3)
    {y2 y : Nat} (hy : y < p) (hy2 : y2 % p = y ^ 2 % p) :
    y2 ^ ((p + 1) / 4) % p = y ∨ y2 ^ ((p + 1) / 4) % p = p - y := by
  haveI : Fact (Nat.Prime p) := ⟨hp⟩
  haveI : NeZero p := ⟨by have := hp.two_le; omega⟩
  set e := (p + 1) / 4 with he
  have he4 : 4 * e = p + 1 := by omega
  have hcast : ((y2 : ZMod p)) = ((y : ZMod p)) ^ 2 := by
    have h := (ZMod.natCast_eq_natCast_iff _ _ _).mpr hy2
    rw [h]; push_cast; ring
  have hval : y2 ^ e % p = ((y2 : ZMod p) ^ e).val := by
    rw [← Nat.cast_pow, ZMod.val_natCast]
  by_cases hy0 : y = 0
  · left
    subst hy0
    have hz : (y2 : ZMod p) = 0 := by rw [hcast]; ring
    rw [hval, hz, zero_pow (by omega : e ≠ 0)]
    exact ZMod.val_zero
  · have hYne : ((y : ZMod p)) ≠ 0 := by
      rw [Ne, ZMod.natCast_zmod_eq_zero_iff_dvd]
      intro hdvd
      have := Nat.le_of_dvd (by omega) hdvd
      omega
    have hsq : ((y2 : ZMod p) ^ e) ^ 2 = ((y : ZMod p)) ^ 2 := by
      rw [hcast, ← pow_mul, ← pow_mul]
      have h2 : 2 * (e * 2) = (p - 1) + 2 := by omega
      rw [h2, pow_add, ZMod.pow_card_sub_one_eq_one hYne, one_mul]
    have hz : ((y2 : ZMod p) ^ e - (y : ZMod p)) *
        ((y2 : ZMod p) ^ e + (y : ZMod p)) = 0 := by
      linear_combination hsq
    rcases mul_eq_zero.mp hz with h | h
    · left
      rw [hval, sub_eq_zero.mp h, ZMod.val_cast_of_lt hy]
    · right
      rw [hval, eq_neg_of_add_eq_zero_left h, ZMod.neg_val, if_neg hYne,
        ZMod.val_cast_of_lt hy]

/-! Unfolding of decode on a compressed-form leading byte. -/

theorem decode_cons_compressed (curve : CurveParams) (b0 : Nat) (rest : List Nat)
    (hb : b0 = 2 ∨ b0 = 3) :
    PublicKey.decode curve (b0 :: rest) =
      .ok (.publicKey (intFromBytesBE rest)
        (if ((((intFromBytesBE rest ^ 3 % curve.p + 7) % curve.p)
                ^ ((curve.p + 1) / 4) % curve.p) % 2 = 0) ↔ (b0 = 2)
         then (((intFromBytesBE rest ^ 3 % curve.p + 7) % curve.p)
                ^ ((curve.p + 1) / 4) % curve.p)
         else curve.p - (((intFromBytesBE rest ^ 3 % curve.p + 7) % curve.p)
                ^ ((curve.p + 1) / 4) % curve.p))) := by
  rcases hb with h | h <;> subst h <;> rfl

/-- C9: decode's two branches produce values of different classes: a leading
byte `0x04` yields a plain base `Point`, while leading bytes `0x02`/`0x03`
yield a `PublicKey` instance. -/
theorem decode_branch_class_tags (curve : CurveParams) (rest : List Nat) :
    (∃ x y, PublicKey.decode curve (4 :: rest) = .ok (.point x y)) ∧
    (∃ x y, PublicKey.decode curve (2 :: rest) = .ok (.publicKey x y)) ∧
    (∃ x y, PublicKey.decode curve (3 :: rest) = .ok (.publicKey x y)) :=
  ⟨⟨_, _, rfl⟩, ⟨_, _, rfl⟩, ⟨_, _, rfl⟩⟩

/-- C4, counterexample: decoding a 64-byte buffer whose first byte is `0x04`
does not fail — the Python slices clamp, and decode returns a point. -/
theorem decode_04_wrong_length_succeeds :
    PublicKey.decode BITCOIN_curve (4 :: List.replicate 63 0) =
      .ok (.point 0 0) := by
  rfl

/-- C4, amended: decode fails exactly when the buffer is empty (IndexError)
or its leading byte is not one of `{0x02, 0x03, 0x04}` (assertion failure,
the spec's InvalidEncodingError); the byte length is never validated. -/
theorem decode_error_iff (curve : CurveParams) (b0 : Nat) (rest : List Nat) :
    ((∃ e, PublicKey.decode curve (b0 :: rest) = .error e) ↔
      ¬(b0 = 2 ∨ b0 = 3 ∨ b0 = 4)) ∧
    PublicKey.decode curve [] = .error .indexError := by
  refine ⟨?_, rfl⟩
  by_cases h4 : b0 = 4
  · subst h4; simp [PublicKey.decode]
  · by_cases h23 : b0 = 2 ∨ b0 = 3
    · rw [decode_cons_compressed curve b0 rest h23]
      simp only [reduceCtorEq, exists_false, false_iff, not_not]
      tauto
    · simp only [PublicKey.decode, if_neg h4, if_neg h23]
      simp only [Except.error.injEq, exists_eq', true_iff]
      tauto

/-! Soundness of the rejection-sampling loop. -/

theorem genLoop_some_sound (sample : Nat → List Nat) (n : Nat) :
    ∀ fuel i k, genLoop sample n i fuel = some k →
      (1 ≤ k ∧ k < n) ∧ ∃ j, k = intFromBytesBE (sample j) := by
  intro fuel
  induction fuel with
  | zero => intro i k h; simp [genLoop] at h
  | succ fuel ih =>
    intro i k h
    simp only [genLoop] at h
    split at h
    · cases h
      exact ⟨by assumption, i, rfl⟩
    · exact ih (i + 1) k h

/-- C5: whenever `gen_secret_key` returns a key `k`, the rejection-sampling
loop guarantees `1 <= k < n` — the accepted sample is returned unreduced and
untruncated. -/
theorem gen_secret_key_range (n : Nat) (source : String)
    (osStream userStream : Nat → List Nat) (fuel k : Nat)
    (h : gen_secret_key n source osStream userStream fuel = .ok (some k)) :
    1 ≤ k ∧ k < n := by
  unfold gen_secret_key at h
  split at h
  · injection h with h'
    exact (genLoop_some_sound _ _ _ _ _ h').1
  · simp at h

/-- Witness for C5: a concrete accepted sample lies in the range. -/
theorem gen_secret_key_range_witness :
    gen_secret_key 5 "os" (fun _ => [3]) (fun _ => [3]) 1 = .ok (some 3) ∧
      (1 ≤ 3 ∧ 3 < 5) :=
  ⟨rfl, gen_secret_key_range 5 "os" (fun _ => [3]) (fun _ => [3]) 1 3 rfl⟩

/-- C8: `gen_secret_key` fails (necessarily with the configuration error of
the failed source-name assert) exactly when the source name is outside the
recognized set; recognized sources never produce an error. -/
theorem gen_secret_key_error_iff (n : Nat) (source : String)
    (osStream userStream : Nat → List Nat) (fuel : Nat) :
    (∃ e, gen_secret_key n source osStream userStream fuel = .error e) ↔
      source ∉ recognizedSources := by
  unfold gen_secret_key
  by_cases hs : source ∈ recognizedSources <;> simp [hs]
  exact ⟨.configurationError, trivial⟩

/-! The deterministic 'mastering' source. -/

theorem gen_secret_key_mastering_eq (n fuel : Nat)
    (osStream userStream : Nat → List Nat) :
    gen_secret_key n "mastering" osStream userStream fuel =
      .ok (genLoop (fun _ => mastering_bitcoin_bytes) n 0 fuel) := by
  rfl

theorem genLoop_const_step (bs : List Nat) (n i fuel : Nat) :
    genLoop (fun _ => bs) n i (fuel + 1) =
      if 1 ≤ intFromBytesBE bs ∧ intFromBytesBE bs < n
      then some (intFromBytesBE bs)
      else genLoop (fun _ => bs) n (i + 1) fuel := rfl

/-- C7: with the 'mastering' source and any upper bound above the published
value, gen_secret_key deterministically returns exactly that value on the
first iteration, and the value is at least 1. -/
theorem gen_secret_key_mastering_value (n fuel : Nat)
    (osStream userStream : Nat → List Nat)
    (h : 0x3aba4162c7251c891207b747840551a71939b0de081f85c4e44cf7c13e41daa6 < n) :
    gen_secret_key n "mastering" osStream userStream (fuel + 1) =
      .ok (some 0x3aba4162c7251c891207b747840551a71939b0de081f85c4e44cf7c13e41daa6) ∧
    1 ≤ 0x3aba4162c7251c891207b747840551a71939b0de081f85c4e44cf7c13e41daa6 := by
  refine ⟨?_, by norm_num⟩
  rw [gen_secret_key_mastering_eq, genLoop_const_step, intFromBytesBE_mastering,
    if_pos ⟨by norm_num, h⟩]

/-- Witness for C7: with upper bound one above the published value the call
returns the published value. -/
theorem gen_secret_key_mastering_value_witness :
    gen_secret_key
        (0x3aba4162c7251c891207b747840551a71939b0de081f85c4e44cf7c13e41daa6 + 1)
        "mastering" (fun _ => []) (fun _ => []) (0 + 1) =
      .ok (some 0x3aba4162c7251c891207b747840551a71939b0de081f85c4e44cf7c13e41daa6) :=
  (gen_secret_key_mastering_value _ 0 _ _ (Nat.lt_succ_self _)).1

theorem genLoop_const_none (bs : List Nat) (n : Nat)
    (h : ¬(1 ≤ intFromBytesBE bs ∧ intFromBytesBE bs < n)) :
    ∀ fuel i, genLoop (fun _ => bs) n i fuel = none := by
  intro fuel
  induction fuel with
  | zero => intro i; rfl
  | succ fuel ih => intro i; rw [genLoop_const_step, if_neg h]; exact ih (i + 1)

/-- C10: with the deterministic 'mastering' source, gen_secret_key
terminates (returns within some number of loop iterations) if and only if
the hardcoded value is below the upper bound `n`; otherwise every iteration
rejects the same sample and the loop never returns. -/
theorem gen_secret_key_mastering_terminates_iff (n : Nat)
    (osStream userStream : Nat → List Nat) :
    (∃ fuel k,
        gen_secret_key n "mastering" osStream userStream fuel = .ok (some k)) ↔
      0x3aba4162c7251c891207b747840551a71939b0de081f85c4e44cf7c13e41daa6 < n := by
  constructor
  · rintro ⟨fuel, k, h⟩
    rw [gen_secret_key_mastering_eq] at h
    injection h with h'
    obtain ⟨⟨h1, h2⟩, j, hj⟩ := genLoop_some_sound _ _ _ _ _ h'
    simp only [intFromBytesBE_mastering] at hj
    subst hj
    exact h2
  · intro h
    refine ⟨1, 0x3aba4162c7251c891207b747840551a71939b0de081f85c4e44cf7c13e41daa6, ?_⟩
    show gen_secret_key n "mastering" osStream userStream (0 + 1) = _
    rw [gen_secret_key_mastering_eq, genLoop_const_step, intFromBytesBE_mastering,
      if_pos ⟨by norm_num, h⟩]

/-- C2: on a compressed encoding (leading byte 2 or 3 followed by 32 bytes
of big-endian x), decode computes the candidate root of x^3 + 7 mod p,
flips it to p minus the candidate when its parity disagrees with the
leading byte, and the returned y always has the parity the leading byte
indicates (even for 2, odd for 3). -/
theorem decode_compressed_formula (curve : CurveParams) (b0 : Nat)
    (rest : List Nat) (hb : b0 = 2 ∨ b0 = 3) (hlen : rest.length = 32)
    (hodd : curve.p % 2 = 1) :
    (PublicKey.decode curve (b0 :: rest) =
      .ok (.publicKey (intFromBytesBE rest)
        (if (((intFromBytesBE rest ^ 3 + 7) % curve.p)
                ^ ((curve.p + 1) / 4) % curve.p) % 2 = 0 ↔ b0 = 2
         then ((intFromBytesBE rest ^ 3 + 7) % curve.p)
                ^ ((curve.p + 1) / 4) % curve.p
         else curve.p -
           ((intFromBytesBE rest ^ 3 + 7) % curve.p)
                ^ ((curve.p + 1) / 4) % curve.p))) ∧
    ∀ x y, PublicKey.decode curve (b0 :: rest) = .ok (.publicKey x y) →
      y % 2 = if b0 = 2 then 0 else 1 := by
  have hmod : (intFromBytesBE rest ^ 3 % curve.p + 7) % curve.p
      = (intFromBytesBE rest ^ 3 + 7) % curve.p := Nat.mod_add_mod _ _ _
  have hdec := decode_cons_compressed curve b0 rest hb
  rw [hmod] at hdec
  refine ⟨hdec, ?_⟩
  intro x y h
  rw [hdec] at h
  injection h with h'
  injection h' with hx hy
  subst hy
  set y0 : Nat := ((intFromBytesBE rest ^ 3 + 7) % curve.p)
      ^ ((curve.p + 1) / 4) % curve.p with hy0
  have hy0lt : y0 < curve.p := Nat.mod_lt _ (by omega)
  rcases hb with hb | hb <;> subst hb
  · by_cases h0 : y0 % 2 = 0
    · rw [if_pos (iff_of_true h0 rfl), if_pos rfl]
      exact h0
    · rw [if_neg (fun hc => h0 (hc.mpr rfl)), if_pos rfl]
      omega
  · by_cases h0 : y0 % 2 = 0
    · rw [if_neg (fun hc => absurd (hc.mp h0) (by norm_num)),
        if_neg (by norm_num)]
      omega
    · rw [if_pos (iff_of_false h0 (by norm_num)), if_neg (by norm_num)]
      omega

/-- Witness for C2: decoding prefix 2 with x = 1 over p = 7 returns the
even root y = 1 of y^2 = 1^3 + 7 = 1 (mod 7), with even parity. -/
theorem decode_compressed_formula_witness :
    PublicKey.decode ⟨7⟩ (2 :: intToBytesBE 32 1) =
      .ok (.publicKey (intFromBytesBE (intToBytesBE 32 1))
        (if (((intFromBytesBE (intToBytesBE 32 1) ^ 3 + 7) % (7:Nat))
                ^ (((7:Nat) + 1) / 4) % (7:Nat)) % 2 = 0 ↔ (2:Nat) = 2
         then ((intFromBytesBE (intToBytesBE 32 1) ^ 3 + 7) % (7:Nat))
                ^ (((7:Nat) + 1) / 4) % (7:Nat)
         else (7:Nat) -
           ((intFromBytesBE (intToBytesBE 32 1) ^ 3 + 7) % (7:Nat))
                ^ (((7:Nat) + 1) / 4) % (7:Nat))) :=
  (decode_compressed_formula ⟨7⟩ 2 (intToBytesBE 32 1) (Or.inl rfl)
    (intToBytesBE_length 32 1) rfl).1

/-- C3: on coordinates below 2^256, the uncompressed encoding is exactly 65
bytes (4 then 32 bytes of x then 32 bytes of y, both recoverable
big-endian), and the compressed encoding is exactly 33 bytes (2 or 3 by the
parity of y, then 32 bytes of x). -/
theorem encode_layout (x y : Nat) (hx : x < 2 ^ 256) (hy : y < 2 ^ 256) :
    (∃ b, PublicKey.encode x y false = some b ∧ b.length = 65 ∧
       b = 4 :: (intToBytesBE 32 x ++ intToBytesBE 32 y) ∧
       intFromBytesBE (intToBytesBE 32 x) = x ∧
       intFromBytesBE (intToBytesBE 32 y) = y) ∧
    (∃ b, PublicKey.encode x y true = some b ∧ b.length = 33 ∧
       b = (if y % 2 = 0 then 2 else 3) :: intToBytesBE 32 x) := by
  have hx' : x < 256 ^ 32 := by rw [pow256_32]; exact hx
  have hy' : y < 256 ^ 32 := by rw [pow256_32]; exact hy
  have hexu : PublicKey.encode x y false =
      some (4 :: (intToBytesBE 32 x ++ intToBytesBE 32 y)) := by
    rw [PublicKey.encode, if_neg (by simp), intToBytesBEChecked, if_pos hx',
      intToBytesBEChecked, if_pos hy']
    simp only [Option.bind_some, Option.some_bind, Option.map_some,
      Option.map_some', List.singleton_append, List.cons_append,
      List.append_assoc, List.nil_append]
  have hexc : PublicKey.encode x y true =
      some ((if y % 2 = 0 then 2 else 3) :: intToBytesBE 32 x) := by
    rw [PublicKey.encode, if_pos rfl, intToBytesBEChecked, if_pos hx']
    by_cases hpar : y % 2 = 0
    · rw [if_pos hpar, if_pos hpar]
      simp only [Option.map_some, Option.map_some', List.singleton_append]
    · rw [if_neg hpar, if_neg hpar]
      simp only [Option.map_some, Option.map_some', List.singleton_append]
  refine ⟨⟨_, hexu, ?_, rfl, intFromBytesBE_intToBytesBE_of_lt hx',
      intFromBytesBE_intToBytesBE_of_lt hy'⟩, ⟨_, hexc, ?_, rfl⟩⟩
  · simp [intToBytesBE_length]
  · simp [intToBytesBE_length]

/-- Witness for C3: the layout at the concrete point (1, 2). -/
theorem encode_layout_witness :
    (∃ b, PublicKey.encode 1 2 false = some b ∧ b.length = 65 ∧
       b = 4 :: (intToBytesBE 32 1 ++ intToBytesBE 32 2) ∧
       intFromBytesBE (intToBytesBE 32 1) = 1 ∧
       intFromBytesBE (intToBytesBE 32 2) = 2) ∧
    (∃ b, PublicKey.encode 1 2 true = some b ∧ b.length = 33 ∧
       b = (if (2:Nat) % 2 = 0 then 2 else 3) :: intToBytesBE 32 1) :=
  encode_layout 1 2 (by norm_num) (by norm_num)

/-- C6: a syntactically well-formed compressed encoding whose x is not on
the curve still decodes without error, and the resulting point does not
satisfy the curve equation. -/
theorem decode_offcurve_silent (curve : CurveParams) (b0 : Nat)
    (rest : List Nat) (hb : b0 = 2 ∨ b0 = 3) (hlen : rest.length = 32)
    (hpos : 0 < curve.p)
    (hnr : ∀ y < curve.p,
      y ^ 2 % curve.p ≠ (intFromBytesBE rest ^ 3 + 7) % curve.p) :
    ∃ x y, PublicKey.decode curve (b0 :: rest) = .ok (.publicKey x y) ∧
      x = intFromBytesBE rest ∧ y ^ 2 % curve.p ≠ (x ^ 3 + 7) % curve.p := by
  have hmod : (intFromBytesBE rest ^ 3 % curve.p + 7) % curve.p
      = (intFromBytesBE rest ^ 3 + 7) % curve.p := Nat.mod_add_mod _ _ _
  have hdec := decode_cons_compressed curve b0 rest hb
  rw [hmod] at hdec
  refine ⟨_, _, hdec, rfl, ?_⟩
  set yd : Nat := if (((intFromBytesBE rest ^ 3 + 7) % curve.p)
        ^ ((curve.p + 1) / 4) % curve.p) % 2 = 0 ↔ b0 = 2
      then ((intFromBytesBE rest ^ 3 + 7) % curve.p)
        ^ ((curve.p + 1) / 4) % curve.p
      else curve.p -
        ((intFromBytesBE rest ^ 3 + 7) % curve.p)
        ^ ((curve.p + 1) / 4) % curve.p with hyd
  intro hcontra
  have h1 : yd ^ 2 % curve.p = (yd % curve.p) ^ 2 % curve.p :=
    (Nat.pow_mod yd 2 curve.p).trans rfl
  exact hnr (yd % curve.p) (Nat.mod_lt _ hpos)
    (by rw [← Nat.pow_mod]; exact hcontra)

/-- Witness for C6: over p = 7, x = 3 is off-curve (3^3 + 7 = 34 is 6 mod 7,
not a square mod 7), yet decode returns the non-curve point (3, 6). -/
theorem decode_offcurve_silent_witness :
    ∃ x y, PublicKey.decode ⟨7⟩ (2 :: intToBytesBE 32 3) =
        .ok (.publicKey x y) ∧
      x = intFromBytesBE (intToBytesBE 32 3) ∧
      y ^ 2 % (7:Nat) ≠ (x ^ 3 + 7) % 7 :=
  decode_offcurve_silent ⟨7⟩ 2 (intToBytesBE 32 3) (Or.inl rfl)
    (intToBytesBE_length 32 3) (by norm_num)
    (by rw [intFromBytesBE_intToBytesBE_of_lt (by norm_num)]; decide)

/-! Unfolding of decode on the uncompressed leading byte. -/

theorem decode_cons_uncompressed (curve : CurveParams) (rest : List Nat) :
    PublicKey.decode curve (4 :: rest) =
      .ok (.point (intFromBytesBE (rest.take 32))
        (intFromBytesBE ((rest.drop 32).take 32))) := rfl

/-- C1: for a point on the curve y^2 = x^3 + 7 over the prime modulus
(congruent to 3 mod 4) with reduced coordinates, decoding the encoding
returns the same coordinates, for both the compressed and the uncompressed
form. -/
theorem decode_encode_roundtrip (curve : CurveParams) (x y : Nat)
    (hp : Nat.Prime curve.p) (h4 : curve.p % 4 = 3) (hplt : curve.p < 2 ^ 256)
    (hx : x < curve.p) (hy : y < curve.p)
    (hcurve : y ^ 2 % curve.p = (x ^ 3 + 7) % curve.p) :
    ∀ compressed : Bool, ∃ b d,
      PublicKey.encode x y compressed = some b ∧
      PublicKey.decode curve b = .ok d ∧ d.coords = (x, y) := by
  have hppos : 0 < curve.p := hp.pos
  have hpodd : curve.p % 2 = 1 := by omega
  have hx' : x < 256 ^ 32 := by rw [pow256_32]; exact lt_trans hx hplt
  have hy' : y < 256 ^ 32 := by rw [pow256_32]; exact lt_trans hy hplt
  have hxround : intFromBytesBE (intToBytesBE 32 x) = x :=
    intFromBytesBE_intToBytesBE_of_lt hx'
  have hyround : intFromBytesBE (intToBytesBE 32 y) = y :=
    intFromBytesBE_intToBytesBE_of_lt hy'
  intro compressed
  cases compressed
  case false =>
    refine ⟨4 :: (intToBytesBE 32 x ++ intToBytesBE 32 y), .point x y,
      ?_, ?_, rfl⟩
    · rw [PublicKey.encode, if_neg (by simp), intToBytesBEChecked, if_pos hx',
        intToBytesBEChecked, if_pos hy']
      simp only [Option.bind_some, Option.some_bind, Option.map_some,
        Option.map_some', List.singleton_append, List.cons_append,
        List.append_assoc, List.nil_append]
    · rw [decode_cons_uncompressed,
        List.take_left' (intToBytesBE_length 32 x),
        List.drop_left' (intToBytesBE_length 32 x),
        List.take_of_length_le (le_of_eq (intToBytesBE_length 32 y)),
        hxround, hyround]
  case true =>
    refine ⟨(if y % 2 = 0 then 2 else 3) :: intToBytesBE 32 x, .publicKey x y,
      ?_, ?_, rfl⟩
    · rw [PublicKey.encode, if_pos rfl, intToBytesBEChecked, if_pos hx']
      by_cases hpar : y % 2 = 0
      · rw [if_pos hpar, if_pos hpar]
        simp only [Option.map_some, Option.map_some', List.singleton_append]
      · rw [if_neg hpar, if_neg hpar]
        simp only [Option.map_some, Option.map_some', List.singleton_append]
    · have hb : (if y % 2 = 0 then (2:Nat) else 3) = 2 ∨
          (if y % 2 = 0 then (2:Nat) else 3) = 3 := by
        by_cases hpar : y % 2 = 0
        · exact Or.inl (if_pos hpar)
        · exact Or.inr (if_neg hpar)
      rw [decode_cons_compressed curve _ _ hb, hxround]
      have hy2eq : ((x ^ 3 % curve.p + 7) % curve.p) % curve.p
          = y ^ 2 % curve.p := by
        rw [Nat.mod_mod_of_dvd _ dvd_rfl, Nat.mod_add_mod]
        exact hcurve.symm
      rcases sqrt_candidate curve.p hp h4 hy hy2eq with h0 | h0 <;>
        set y0 : Nat :=
          ((x ^ 3 % curve.p + 7) % curve.p) ^ ((curve.p + 1) / 4) % curve.p
          with hy0def
      · -- the candidate root is y itself
        have hy0lt : y0 < curve.p := Nat.mod_lt _ hppos
        by_cases hpar : y % 2 = 0
        · have hbval : (if y % 2 = 0 then (2:Nat) else 3) = 2 := if_pos hpar
          rw [if_pos (iff_of_true (show y0 % 2 = 0 by omega) hbval), h0]
        · have hbne : (if y % 2 = 0 then (2:Nat) else 3) ≠ 2 := by
            rw [if_neg hpar]; norm_num
          rw [if_pos (iff_of_false (show ¬y0 % 2 = 0 by omega) hbne), h0]
      · -- the candidate root is p - y and gets flipped back
        have hy0lt : y0 < curve.p := Nat.mod_lt _ hppos
        by_cases hpar : y % 2 = 0
        · have hbval : (if y % 2 = 0 then (2:Nat) else 3) = 2 := if_pos hpar
          have hne : ¬y0 % 2 = 0 := by omega
          rw [if_neg (fun hc => hne (hc.mpr hbval)),
            show curve.p - y0 = y by omega]
        · have hbne : (if y % 2 = 0 then (2:Nat) else 3) ≠ 2 := by
            rw [if_neg hpar]; norm_num
          have hz : y0 % 2 = 0 := by omega
          rw [if_neg (fun hc => hbne (hc.mp hz)),
            show curve.p - y0 = y by omega]

/-- Witness for C1: the point (1, 6) lies on y^2 = x^3 + 7 over p = 7
(both 1 and 36 reduce to 1 mod 7), and both encodings decode back to it. -/
theorem decode_encode_roundtrip_witness :
    (∃ b d, PublicKey.encode 1 6 true = some b ∧
      PublicKey.decode ⟨7⟩ b = .ok d ∧ d.coords = (1, 6)) ∧
    (∃ b d, PublicKey.encode 1 6 false = some b ∧
      PublicKey.decode ⟨7⟩ b = .ok d ∧ d.coords = (1, 6)) := by
  have h := decode_encode_roundtrip ⟨7⟩ 1 6 (by norm_num) rfl (by norm_num)
    (by norm_num) (by norm_num) (by norm_num)
  exact ⟨h true, h false⟩
